import Mathlib

/-!
Verification of the CMA-ES population trainer in `rl_baselines/cma_es.py`.

The development shallowly embeds the trainer: the shared pytorch policy is an
abstract evaluation function `List ℚ → Obs → Act` together with the flat
parameter vector currently written into it; the `cma` evolution-strategy object
is an abstract state `S` with `ask`/`tell`/`result.xbest` operations; the
vectorized gym environment is an abstract state `E` with batched `reset`/`step`.
Rewards and parameters are modelled as exact rationals, the real-valued softmax
of the discrete action head as exact reals.  The two `while` loops of
`CMAES.train` are fuel-indexed functions returning `Option`.
-/

namespace CmaEs

/-- Index into a list with a default value, the `xs[k]` access pattern used by
the rollout loop (`obs[k]`, `done[k]`, `population[k]`). -/
def idx {α : Type} : List α → ℕ → α → α
  | [], _, d => d
  | a :: _, 0, _ => a
  | _ :: l, k + 1, d => idx l k d

/-- Error values named by the spec (section 7). -/
inductive CMAErr where
  | ProtocolViolation
  | ShapeMismatch
  deriving DecidableEq

/-- First-occurrence argmax helper: given a head `x` and the tail list, returns
the pair (index, value) of the first maximum of `x :: tail` in left-to-right
scan order, which is the tie-breaking rule of `np.argmax`. -/
def amfAux {α : Type} [LinearOrder α] (x : α) : List α → ℕ × α
  | [] => (0, x)
  | y :: ys =>
    let r := amfAux y ys
    if x < r.2 then (r.1 + 1, r.2) else (0, x)

/-- The `np.argmax` of a list: index of the first occurrence of the maximum
(0 on the empty list, on which numpy would raise). -/
def argmaxFirst {α : Type} [LinearOrder α] : List α → ℕ
  | [] => 0
  | x :: xs => (amfAux x xs).1

/-- The softmax transform `F.softmax(v, dim=-1)` in exact real arithmetic:
entry `i` becomes `exp v_i / Σ_j exp v_j`. -/
noncomputable def softmax (l : List ℝ) : List ℝ :=
  l.map (fun x => Real.exp x / (l.map Real.exp).sum)

/-- PytorchPolicy.getAction: in continuous-action mode return the raw network
output vector; in discrete mode return `np.argmax` of the softmaxed output. -/
noncomputable def PytorchPolicy.getAction (continuous_actions : Bool)
    (model : List ℝ → List ℝ) (obs : List ℝ) : List ℝ ⊕ ℕ :=
  if continuous_actions then Sum.inl (model obs)
  else Sum.inr (argmaxFirst (softmax (model obs)))

/-- Modelled from the spec: `PytorchPolicy.setParam` delegates to torch's
`vector_to_parameters`, whose body is not part of this repository; per spec
section 4.1 `setParameters` overwrites all weights (modelled here in their
fixed flattening order) with the given vector when its length equals the
declared parameter count, and fails with `ShapeMismatch` otherwise. -/
def setParam (param_len : ℕ) (param : List ℚ) : Except CMAErr (List ℚ) :=
  if param.length ≠ param_len then Except.error CMAErr.ShapeMismatch
  else Except.ok param

/-- Modelled from the spec: the ask/tell bookkeeping of the external `cma`
library's `CMAEvolutionStrategy` is not part of this repository; per spec
section 4.2 the strategy remembers the population returned by the immediately
preceding `ask`, to be matched by the next `tell`.  The numeric distribution
update itself stays abstract in `S`. -/
structure AskTellState (S : Type) where
  inner : S
  lastAsked : Option (List (List ℚ))
  deriving DecidableEq

/-- Modelled from the spec: `ask` samples a population (abstract `ask0`) and
records it as the population awaiting the matching `tell`. -/
def askChecked {S : Type} (ask0 : S → S × List (List ℚ)) (s : AskTellState S) :
    AskTellState S × List (List ℚ) :=
  ({ inner := (ask0 s.inner).1, lastAsked := some (ask0 s.inner).2 },
   (ask0 s.inner).2)

/-- Modelled from the spec: `tell` called with a population different from the
one returned by the immediately preceding `ask`, or with a fitness vector of a
different length, is a usage error `ProtocolViolation` that aborts training;
otherwise the abstract distribution update `tell0` runs. -/
def tellChecked {S : Type} (tell0 : S → List (List ℚ) → List ℚ → S)
    (s : AskTellState S) (population : List (List ℚ)) (fitness : List ℚ) :
    Except CMAErr (AskTellState S) :=
  if s.lastAsked ≠ some population ∨ fitness.length ≠ population.length then
    Except.error CMAErr.ProtocolViolation
  else
    Except.ok { inner := tell0 s.inner population fitness, lastAsked := none }

/-- Interface of the evolution-strategy object `self.es` exactly as
`CMAES.train` uses it: `ask()`, `tell(population, fitness)` and
`result.xbest`; the library state stays abstract in `S`. -/
structure Strategy (S : Type) where
  ask : S → S × List (List ℚ)
  tell : S → List (List ℚ) → List ℚ → S
  xbest : S → List ℚ

/-- Interface of the vectorized gym environment as `CMAES.train` uses it:
`reset()` returns an observation batch, `step(actions)` consumes one
(possibly `None`) action per instance and returns the new observation batch,
the reward batch and the done batch (the `info` component is never read). -/
structure VecEnv (E Obs Act : Type) where
  reset : E → E × List Obs
  step : E → List (Option Act) → E × List Obs × List ℚ × List Bool

/-- State of a `CMAES` trainer object: the attributes set in `CMAES.__init__`,
with the shared policy represented by its current flat parameter vector
`policy_params` (the policy's evaluation function is passed separately). -/
structure CMAES (S : Type) where
  policy_params : List ℚ
  n_population : ℕ
  init_mu : ℚ
  init_sigma : ℚ
  continuous_actions : Bool
  es : S
  best_model : List ℚ
  deriving DecidableEq

/-- CMAES.__init__: store the hyperparameters, build the strategy state from
the broadcast mean `param_len * [mu]`, `sigma` and the population size, and
cache `best_model` from the fresh strategy's `result.xbest`.  The shared
policy keeps whatever parameters it already carries (`policy_params`). -/
def CMAES.init {S : Type} (cmaInit : List ℚ → ℚ → ℕ → S) (xbest : S → List ℚ)
    (param_len : ℕ) (policy_params : List ℚ) (n_population : ℕ) (mu sigma : ℚ)
    (continuous_actions : Bool) : CMAES S :=
  let es := cmaInit (List.replicate param_len mu) sigma n_population
  { policy_params := policy_params
    n_population := n_population
    init_mu := mu
    init_sigma := sigma
    continuous_actions := continuous_actions
    es := es
    best_model := xbest es }

/-- CMAES.getAction: delegate to the shared policy, which evaluates its current
parameter vector on the observation. -/
def CMAES.getAction {S Obs Act : Type} (act : List ℚ → Obs → Act) (st : CMAES S)
    (obs : Obs) : Act :=
  act st.policy_params obs

/-- CMAES.save: pickle `self.__dict__`, i.e. the full attribute record. -/
def CMAES.save {S : Type} (st : CMAES S) : CMAES S := st

/-- The module-level `load`: re-run the `CMAES` constructor on the saved
hyperparameters (`continuous_actions` is not passed, so the constructor
default `false` is used there) and then overwrite the fresh object's entire
`__dict__` with the saved attribute record. -/
def load {S : Type} (cmaInit : List ℚ → ℚ → ℕ → S) (xbest : S → List ℚ)
    (param_len : ℕ) (d : CMAES S) : CMAES S :=
  let m := CMAES.init cmaInit xbest param_len d.policy_params d.n_population
    d.init_mu d.init_sigma false
  { m with
    policy_params := d.policy_params
    n_population := d.n_population
    init_mu := d.init_mu
    init_sigma := d.init_sigma
    continuous_actions := d.continuous_actions
    es := d.es
    best_model := d.best_model }

/-- Transient per-generation rollout state of `CMAES.train`: environment
handle, current observation batch, cumulative reward accumulator `r`, done
flags, the shared policy's current parameters, and the global step counter. -/
structure RolloutState (E Obs : Type) where
  env : E
  obs : List Obs
  r : List ℚ
  done : List Bool
  params : List ℚ
  step : ℕ
  deriving DecidableEq

/-- The per-step action-assembly loop of `CMAES.train`: for each instance `k`
not yet done, `setParam(population[k])` then `getAction(obs[k])`; for an
instance already done the appended action is `None`.  Returns the assembled
action list together with the policy parameters left behind by the loop (the
vector written by the last executed `setParam`). -/
def actionLoop {Obs Act : Type} (act : List ℚ → Obs → Act) :
    List (List ℚ) → List Obs → List Bool → List ℚ → List (Option Act) × List ℚ
  | p :: ps, o :: os, d :: ds, q =>
    if d then
      ((none : Option Act) :: (actionLoop act ps os ds q).1,
       (actionLoop act ps os ds q).2)
    else
      (some (act p o) :: (actionLoop act ps os ds p).1,
       (actionLoop act ps os ds p).2)
  | _, _, _, q => ([], q)

/-- The masked accumulation `r[~done] += reward[~done]` of `CMAES.train`,
where `done` is the already-merged done vector of the current step. -/
def accumReward : List ℚ → List ℚ → List Bool → List ℚ
  | x :: xs, w :: ws, d :: ds => (if d then x else x + w) :: accumReward xs ws ds
  | xs, _, _ => xs

/-- One iteration of the inner `while not done.all()` loop of `CMAES.train`:
assemble the actions, step the environment, add `n_population` to the step
counter, merge the done flags with `np.bitwise_or`, and accumulate rewards for
the instances not done after the merge. -/
def rolloutStep {E Obs Act : Type} (ve : VecEnv E Obs Act)
    (act : List ℚ → Obs → Act) (n : ℕ) (pop : List (List ℚ))
    (st : RolloutState E Obs) : RolloutState E Obs :=
  let al := actionLoop act pop st.obs st.done st.params
  let t := ve.step st.env al.1
  let done1 := List.zipWith (fun a b => a || b) st.done t.2.2.2
  { env := t.1
    obs := t.2.1
    r := accumReward st.r t.2.2.1 done1
    done := done1
    params := al.2
    step := st.step + n }

/-- The inner rollout loop of `CMAES.train`, fuel-indexed: return the final
rollout state once every done flag is true, `none` if the fuel runs out. -/
def rolloutLoop {E Obs Act : Type} (ve : VecEnv E Obs Act)
    (act : List ℚ → Obs → Act) (n : ℕ) (pop : List (List ℚ)) :
    ℕ → RolloutState E Obs → Option (RolloutState E Obs)
  | 0, st => if st.done.all id then some st else none
  | fuel + 1, st =>
    if st.done.all id then some st
    else rolloutLoop ve act n pop fuel (rolloutStep ve act n pop st)

/-- One generation of `CMAES.train`: reset the environment, `ask` for a
population, zero the accumulator and the done flags, run the rollout, then
`tell` the strategy the negated accumulated rewards and refresh `best_model`
from `result.xbest`.  Returns the updated trainer, the environment handle, the
step counter, and the fitness vector that was passed to `tell`. -/
def runGeneration {E S Obs Act : Type} (ve : VecEnv E Obs Act)
    (strat : Strategy S) (act : List ℚ → Obs → Act) (rfuel : ℕ) (st : CMAES S)
    (e : E) (step : ℕ) : Option (CMAES S × E × ℕ × List ℚ) :=
  let re := ve.reset e
  let ak := strat.ask st.es
  match rolloutLoop ve act st.n_population ak.2 rfuel
      { env := re.1
        obs := re.2
        r := List.replicate st.n_population 0
        done := List.replicate st.n_population false
        params := st.policy_params
        step := step } with
  | none => none
  | some fin =>
    let fitness := fin.r.map (fun x => -x)
    let es2 := strat.tell ak.1 ak.2 fitness
    some ({ st with
            es := es2
            best_model := strat.xbest es2
            policy_params := fin.params }, fin.env, fin.step, fitness)

/-- The outer `while step < num_updates` loop of `CMAES.train`, fuel-indexed by
the number of generations still allowed. -/
def trainLoop {E S Obs Act : Type} (ve : VecEnv E Obs Act) (strat : Strategy S)
    (act : List ℚ → Obs → Act) (rfuel num_updates : ℕ) :
    ℕ → CMAES S → E → ℕ → Option (CMAES S × E × ℕ)
  | 0, st, e, step => if step < num_updates then none else some (st, e, step)
  | gfuel + 1, st, e, step =>
    if step < num_updates then
      match runGeneration ve strat act rfuel st e step with
      | none => none
      | some res =>
          trainLoop ve strat act rfuel num_updates gfuel res.1 res.2.1 res.2.2.1
    else some (st, e, step)

/-- CMAES.train: run the generation loop starting from step counter 0. -/
def CMAES.train {E S Obs Act : Type} (ve : VecEnv E Obs Act)
    (strat : Strategy S) (act : List ℚ → Obs → Act) (rfuel gfuel num_updates : ℕ)
    (st : CMAES S) (e : E) : Option (CMAES S × E × ℕ) :=
  trainLoop ve strat act rfuel num_updates gfuel st e 0

/-- The defaults registered by `customArguments`: `--num-population` 20,
`--mu` 0, `--sigma` 0.2. -/
structure DefaultArgs where
  num_population : ℕ
  mu : ℚ
  sigma : ℚ

/-- The argument namespace produced by `customArguments` when none of its
options is overridden. -/
def customArguments : DefaultArgs :=
  { num_population := 20, mu := 0, sigma := 1 / 5 }

/-- The trainer `main` constructs:
`CMAES(args.num_population, policy, mu=args.mu, sigma=args.sigma,
continuous_actions=args.continuous_actions)`. -/
def mainModel {S : Type} (cmaInit : List ℚ → ℚ → ℕ → S) (xbest : S → List ℚ)
    (param_len : ℕ) (policy_params : List ℚ) (a : DefaultArgs)
    (continuous_actions : Bool) : CMAES S :=
  CMAES.init cmaInit xbest param_len policy_params a.num_population a.mu
    a.sigma continuous_actions

/-- The update budget `main` passes to `train`:
`int(args.num_timesteps) // args.num_population*2`, which by Python operator
precedence is the floor quotient multiplied by 2. -/
def mainNumUpdates (num_timesteps num_population : ℕ) : ℕ :=
  num_timesteps / num_population * 2

/-- A deterministic single-instance environment whose episode reports done on
every step, with reward 1 per step. -/
def wEnv : VecEnv Unit Unit Unit :=
  { reset := fun _ => ((), [()])
    step := fun _ _ => ((), [()], [1], [true]) }

/-- The same single-instance environment with the policy's parameter vector as
the action type, used to instantiate the rollout at a nontrivial action type. -/
def wEnvP : VecEnv Unit Unit (List ℚ) :=
  { reset := fun _ => ((), [()])
    step := fun _ _ => ((), [()], [1], [true]) }

/-- A deterministic single-instance environment whose episode reports done
after exactly two steps; the environment state counts steps since reset. -/
def ceEnv : VecEnv ℕ Unit Unit :=
  { reset := fun _ => (0, [()])
    step := fun e _ => (e + 1, [()], [1], [decide (2 ≤ e + 1)]) }

/-- A trivial strategy over the unit library state: `ask` always returns the
single candidate `[0]`, `tell` is a no-op, `xbest` is the empty vector. -/
def ceStrat : Strategy Unit :=
  { ask := fun s => (s, [[0]])
    tell := fun s _ _ => s
    xbest := fun _ => [] }

/-- A policy evaluation function with unit actions. -/
def wAct : List ℚ → Unit → Unit := fun _ _ => ()

/-- A policy evaluation function whose action is the parameter vector itself. -/
def pAct : List ℚ → Unit → List ℚ := fun p _ => p

/-- A concrete trainer state with population size 1. -/
def ceCMAES : CMAES Unit :=
  { policy_params := []
    n_population := 1
    init_mu := 0
    init_sigma := 1
    continuous_actions := false
    es := ()
    best_model := [] }

/-- A concrete rollout state whose single instance is already done. -/
def wRoll : RolloutState Unit Unit :=
  { env := ()
    obs := [()]
    r := [0]
    done := [true]
    params := []
    step := 0 }

/-- The concrete result of one generation of `ceStrat` in `wEnv` from
`ceCMAES`: the episode is done on the first step, so the accumulator stays 0,
the step counter becomes 1, and the policy keeps the candidate `[0]`. -/
def wGenRes : CMAES Unit × Unit × ℕ × List ℚ :=
  (CMAES.mk [0] 1 0 1 false () [], (), 1, [0])

/-! ### Basic lemmas about the list helpers -/

@[simp] theorem idx_nil {α : Type} (k : ℕ) (d : α) : idx [] k d = d := rfl

@[simp] theorem idx_cons_zero {α : Type} (a : α) (l : List α) (d : α) :
    idx (a :: l) 0 d = a := rfl

@[simp] theorem idx_cons_succ {α : Type} (a : α) (l : List α) (k : ℕ) (d : α) :
    idx (a :: l) (k + 1) d = idx l k d := rfl

theorem accumReward_length : ∀ (r w : List ℚ) (d : List Bool),
    (accumReward r w d).length = r.length
  | [], _, _ => by simp [accumReward]
  | _ :: _, [], _ => by simp [accumReward]
  | _ :: _, _ :: _, [] => by simp [accumReward]
  | x :: xs, w :: ws, d :: ds => by
    simp [accumReward, accumReward_length xs ws ds]

theorem idx_accumReward_of_done : ∀ (r w : List ℚ) (d : List Bool) (k : ℕ),
    idx d k false = true →
    idx (accumReward r w d) k 0 = idx r k 0
  | [], _, _, _, _ => by simp [accumReward]
  | _ :: _, [], _, _, _ => by simp [accumReward]
  | _ :: _, _ :: _, [], k, h => by simp at h
  | x :: xs, w :: ws, d :: ds, 0, h => by
    simp at h
    simp [accumReward, h]
  | x :: xs, w :: ws, d :: ds, k + 1, h => by
    simp at h
    simp [accumReward, idx_accumReward_of_done xs ws ds k h]

theorem idx_accumReward : ∀ (r w : List ℚ) (d : List Bool) (k : ℕ),
    k < r.length → k < w.length → k < d.length →
    idx (accumReward r w d) k 0 =
      if idx d k false then idx r k 0 else idx r k 0 + idx w k 0
  | x :: xs, w :: ws, d :: ds, 0, _, _, _ => by
    cases d <;> simp [accumReward]
  | x :: xs, w :: ws, d :: ds, k + 1, hr, hw, hd => by
    simp only [accumReward, idx_cons_succ]
    exact idx_accumReward xs ws ds k (by simpa using hr) (by simpa using hw)
      (by simpa using hd)
  | [], _, _, k, hr, _, _ => absurd hr (by simp)
  | _ :: _, [], _, k, _, hw, _ => absurd hw (by simp)
  | _ :: _, _ :: _, [], k, _, _, hd => absurd hd (by simp)

theorem idx_zipWith_or : ∀ (d nd : List Bool) (k : ℕ),
    k < d.length → k < nd.length →
    idx (List.zipWith (fun a b => a || b) d nd) k false
      = (idx d k false || idx nd k false)
  | a :: as, b :: bs, 0, _, _ => by simp
  | a :: as, b :: bs, k + 1, hd, hnd => by
    simp only [List.zipWith_cons_cons, idx_cons_succ]
    exact idx_zipWith_or as bs k (by simpa using hd) (by simpa using hnd)
  | [], _, k, hd, _ => absurd hd (by simp)
  | _ :: _, [], k, _, hnd => absurd hnd (by simp)

theorem idx_map_neg : ∀ (l : List ℚ) (k : ℕ),
    idx (l.map (fun x => -x)) k 0 = -(idx l k 0)
  | [], k => by simp
  | x :: xs, 0 => by simp
  | x :: xs, k + 1 => by simp [idx_map_neg xs k]

theorem idx_replicate_lt {α : Type} (a d : α) : ∀ (n k : ℕ), k < n →
    idx (List.replicate n a) k d = a
  | n + 1, 0, _ => by simp [List.replicate_succ]
  | n + 1, k + 1, h => by
    simp only [List.replicate_succ, idx_cons_succ]
    exact idx_replicate_lt a d n k (by omega)

theorem all_replicate_false (n : ℕ) (hn : 1 ≤ n) :
    (List.replicate n false).all id = false := by
  cases n with
  | zero => omega
  | succ m => simp [List.replicate_succ]

/-! ### Claims C9, C10, C4, C5, C6 -/

/-- Claim C9: `main` passes `train` the update budget
`int(args.num_timesteps) // args.num_population*2`, which by Python operator
precedence is the floor quotient of the timestep budget by the population size
multiplied by two — not `num_timesteps` itself and not
`num_timesteps // (num_population * 2)`. -/
theorem claim_C9_main_num_updates :
    (∀ num_timesteps num_population : ℕ,
      mainNumUpdates num_timesteps num_population
        = num_timesteps / num_population * 2) ∧
    mainNumUpdates 1000 20 = 100 ∧
    mainNumUpdates 1000 20 ≠ 1000 ∧
    mainNumUpdates 1000 20 ≠ 1000 / (20 * 2) :=
  ⟨fun _ _ => rfl, by decide, by decide, by decide⟩

/-- Claim C10: the configuration surface defaults are population size 20,
initial mean 0 and initial step size 0.2, and a trainer built by `main` from
the unmodified argument namespace initializes its search distribution from
exactly these values: mean 0 broadcast over the parameter count, step size
1/5, population size 20. -/
theorem claim_C10_defaults {S : Type} (cmaInit : List ℚ → ℚ → ℕ → S)
    (xbest : S → List ℚ) (param_len : ℕ) (policy_params : List ℚ)
    (continuous_actions : Bool) :
    customArguments.num_population = 20 ∧ customArguments.mu = 0 ∧
    customArguments.sigma = 1 / 5 ∧
    (mainModel cmaInit xbest param_len policy_params customArguments
        continuous_actions).n_population = 20 ∧
    (mainModel cmaInit xbest param_len policy_params customArguments
        continuous_actions).init_mu = 0 ∧
    (mainModel cmaInit xbest param_len policy_params customArguments
        continuous_actions).init_sigma = 1 / 5 ∧
    (mainModel cmaInit xbest param_len policy_params customArguments
        continuous_actions).es
      = cmaInit (List.replicate param_len 0) (1 / 5) 20 :=
  ⟨rfl, rfl, rfl, rfl, rfl, rfl, rfl⟩

/-- Claim C4: `load(save(trainer))` reconstructs an equivalent trainer —
`load` re-runs the `CMAES` constructor path and then overwrites the fresh
object's state with the saved attribute record, which restores the original
trainer exactly; consequently one further generation (deterministic in this
embedding) produces exactly the same result, in particular the same fitness
vector, as the original trainer continuing unserialized. -/
theorem claim_C4_save_load_roundtrip {E S Obs Act : Type}
    (ve : VecEnv E Obs Act) (strat : Strategy S) (act : List ℚ → Obs → Act)
    (rfuel : ℕ) (cmaInit : List ℚ → ℚ → ℕ → S) (xbest : S → List ℚ)
    (param_len : ℕ) (st : CMAES S) (e : E) (step : ℕ) :
    load cmaInit xbest param_len (CMAES.save st) = st ∧
    runGeneration ve strat act rfuel (load cmaInit xbest param_len (CMAES.save st)) e step
      = runGeneration ve strat act rfuel st e step :=
  ⟨rfl, rfl⟩

/-- Claim C5: `tell` invoked with a population different from the one returned
by the immediately preceding `ask`, or with a fitness vector whose length
differs from the population's, yields the `ProtocolViolation` error, whose
`Except.error` propagation aborts training. -/
theorem claim_C5_tell_protocol {S : Type}
    (tell0 : S → List (List ℚ) → List ℚ → S) (s : AskTellState S)
    (population : List (List ℚ)) (fitness : List ℚ)
    (h : s.lastAsked ≠ some population ∨ fitness.length ≠ population.length) :
    tellChecked tell0 s population fitness
      = Except.error CMAErr.ProtocolViolation := by
  unfold tellChecked
  rw [if_pos h]

/-- Claim C5 witness: `tell` without a prior `ask` on a concrete state. -/
theorem claim_C5_tell_protocol_witness :
    (AskTellState.mk () none).lastAsked ≠ some [[0]] ∧
    tellChecked (fun s _ _ => s) (AskTellState.mk () none) [[0]] []
      = Except.error CMAErr.ProtocolViolation :=
  ⟨by decide, claim_C5_tell_protocol _ _ _ _ (Or.inl (by decide))⟩

/-- Claim C6: `setParameters` with a vector whose length differs from the
policy's declared parameter count fails with `ShapeMismatch`; with a vector of
exactly that length it succeeds and the policy's flattened weights become
exactly the given vector (the fixed deterministic flattening order). -/
theorem claim_C6_setParam_shape (param_len : ℕ) (param : List ℚ) :
    (param.length ≠ param_len →
      setParam param_len param = Except.error CMAErr.ShapeMismatch) ∧
    (param.length = param_len → setParam param_len param = Except.ok param) := by
  constructor
  · intro h
    unfold setParam
    rw [if_pos h]
  · intro h
    unfold setParam
    rw [if_neg (by simp [h])]

/-- Claim C6 witness: a length-1 vector against parameter counts 2 and 1. -/
theorem claim_C6_setParam_shape_witness :
    setParam 2 [1] = Except.error CMAErr.ShapeMismatch ∧
    setParam 1 [1] = Except.ok [1] :=
  ⟨(claim_C6_setParam_shape 2 [1]).1 (by decide),
   (claim_C6_setParam_shape 1 [1]).2 (by decide)⟩

/-! ### Claim C7: action selection -/

theorem amfAux_spec {α : Type} [LinearOrder α] (d : α) :
    ∀ (x : α) (xs : List α),
      (amfAux x xs).1 < (x :: xs).length ∧
      idx (x :: xs) (amfAux x xs).1 d = (amfAux x xs).2 ∧
      (∀ j, j < (x :: xs).length → idx (x :: xs) j d ≤ (amfAux x xs).2) ∧
      (∀ j, j < (amfAux x xs).1 → idx (x :: xs) j d < (amfAux x xs).2)
  | x, [] => by
    refine ⟨by simp [amfAux], by simp [amfAux], ?_, ?_⟩
    · intro j hj
      have hj0 : j = 0 := by
        simp only [List.length_cons, List.length_nil] at hj
        omega
      subst hj0
      simp [amfAux]
    · intro j hj
      simp [amfAux] at hj
  | x, y :: ys => by
    obtain ⟨ih1, ih2, ih3, ih4⟩ := amfAux_spec d y ys
    by_cases hx : x < (amfAux y ys).2
    · have he : amfAux x (y :: ys) = ((amfAux y ys).1 + 1, (amfAux y ys).2) := by
        simp [amfAux, hx]
      rw [he]
      refine ⟨?_, by simpa using ih2, ?_, ?_⟩
      · simp only [List.length_cons] at ih1 ⊢
        omega
      · intro j hj
        cases j with
        | zero => simpa using le_of_lt hx
        | succ i =>
          simp only [idx_cons_succ]
          refine ih3 i ?_
          simp only [List.length_cons] at hj ⊢
          omega
      · intro j hj
        cases j with
        | zero => simpa using hx
        | succ i =>
          simp only [idx_cons_succ]
          exact ih4 i (by omega)
    · have he : amfAux x (y :: ys) = (0, x) := by
        simp [amfAux, hx]
      rw [he]
      have hle : (amfAux y ys).2 ≤ x := le_of_not_lt hx
      refine ⟨by simp, by simp, ?_, ?_⟩
      · intro j hj
        cases j with
        | zero => simp
        | succ i =>
          simp only [idx_cons_succ, idx_cons_zero]
          refine le_trans (ih3 i ?_) hle
          simp only [List.length_cons] at hj ⊢
          omega
      · intro j hj
        exact absurd hj (Nat.not_lt_zero j)

theorem argmaxFirst_spec {α : Type} [LinearOrder α] (d : α) (l : List α)
    (hl : l ≠ []) :
    argmaxFirst l < l.length ∧
    (∀ j, j < l.length → idx l j d ≤ idx l (argmaxFirst l) d) ∧
    (∀ j, j < argmaxFirst l → idx l j d < idx l (argmaxFirst l) d) := by
  match l, hl with
  | x :: xs, _ =>
    obtain ⟨h1, h2, h3, h4⟩ := amfAux_spec d x xs
    have he : argmaxFirst (x :: xs) = (amfAux x xs).1 := rfl
    rw [he, h2]
    exact ⟨h1, h3, h4⟩

theorem length_softmax (l : List ℝ) : (softmax l).length = l.length := by
  simp [softmax]

/-- Claim C7: in continuous mode `getAction` returns the raw network output
vector; in discrete mode, for a nonempty network output, it returns the index
of the maximum entry of the softmax-transformed output, ties broken by the
lowest index (the returned index attains the maximum and every strictly
earlier entry is strictly smaller). -/
theorem claim_C7_get_action_modes (model : List ℝ → List ℝ) (obs : List ℝ)
    (hne : model obs ≠ []) :
    PytorchPolicy.getAction true model obs = Sum.inl (model obs) ∧
    PytorchPolicy.getAction false model obs
      = Sum.inr (argmaxFirst (softmax (model obs))) ∧
    argmaxFirst (softmax (model obs)) < (softmax (model obs)).length ∧
    (∀ j, j < (softmax (model obs)).length →
      idx (softmax (model obs)) j 0
        ≤ idx (softmax (model obs)) (argmaxFirst (softmax (model obs))) 0) ∧
    (∀ j, j < argmaxFirst (softmax (model obs)) →
      idx (softmax (model obs)) j 0
        < idx (softmax (model obs)) (argmaxFirst (softmax (model obs))) 0) := by
  have hs : softmax (model obs) ≠ [] := by
    simp only [softmax, ne_eq, List.map_eq_nil_iff]
    exact hne
  obtain ⟨h1, h2, h3⟩ := argmaxFirst_spec (0 : ℝ) (softmax (model obs)) hs
  exact ⟨by simp [PytorchPolicy.getAction], by simp [PytorchPolicy.getAction],
    h1, h2, h3⟩

/-- Claim C7 witness: the two modes on the constant network `[0, 1]`. -/
theorem claim_C7_get_action_modes_witness :
    PytorchPolicy.getAction true (fun _ => [(0 : ℝ), 1]) []
      = Sum.inl [(0 : ℝ), 1] ∧
    PytorchPolicy.getAction false (fun _ => [(0 : ℝ), 1]) []
      = Sum.inr (argmaxFirst (softmax [(0 : ℝ), 1])) := by
  have h := claim_C7_get_action_modes (fun _ => [(0 : ℝ), 1]) [] (by simp)
  exact ⟨h.1, h.2.1⟩

/-! ### Projections of `rolloutStep` -/

theorem rolloutStep_step {E Obs Act : Type} (ve : VecEnv E Obs Act)
    (act : List ℚ → Obs → Act) (n : ℕ) (pop : List (List ℚ))
    (st : RolloutState E Obs) :
    (rolloutStep ve act n pop st).step = st.step + n := rfl

theorem rolloutStep_params {E Obs Act : Type} (ve : VecEnv E Obs Act)
    (act : List ℚ → Obs → Act) (n : ℕ) (pop : List (List ℚ))
    (st : RolloutState E Obs) :
    (rolloutStep ve act n pop st).params
      = (actionLoop act pop st.obs st.done st.params).2 := rfl

theorem rolloutStep_done {E Obs Act : Type} (ve : VecEnv E Obs Act)
    (act : List ℚ → Obs → Act) (n : ℕ) (pop : List (List ℚ))
    (st : RolloutState E Obs) :
    (rolloutStep ve act n pop st).done
      = List.zipWith (fun a b => a || b) st.done
          (ve.step st.env (actionLoop act pop st.obs st.done st.params).1).2.2.2 := rfl

theorem rolloutStep_r {E Obs Act : Type} (ve : VecEnv E Obs Act)
    (act : List ℚ → Obs → Act) (n : ℕ) (pop : List (List ℚ))
    (st : RolloutState E Obs) :
    (rolloutStep ve act n pop st).r
      = accumReward st.r
          (ve.step st.env (actionLoop act pop st.obs st.done st.params).1).2.2.1
          (List.zipWith (fun a b => a || b) st.done
            (ve.step st.env (actionLoop act pop st.obs st.done st.params).1).2.2.2) := rfl

theorem rolloutStep_obs {E Obs Act : Type} (ve : VecEnv E Obs Act)
    (act : List ℚ → Obs → Act) (n : ℕ) (pop : List (List ℚ))
    (st : RolloutState E Obs) :
    (rolloutStep ve act n pop st).obs
      = (ve.step st.env (actionLoop act pop st.obs st.done st.params).1).2.1 := rfl

/-! ### Rollout invariants (claim C1) -/

theorem actionLoop_fst_none {Obs Act : Type} (act : List ℚ → Obs → Act) :
    ∀ (pop : List (List ℚ)) (obs : List Obs) (done : List Bool) (q : List ℚ)
      (k : ℕ),
      k < pop.length → k < obs.length → k < done.length →
      idx done k false = true →
      idx (actionLoop act pop obs done q).1 k none = none
  | p :: ps, o :: os, d :: ds, q, 0, _, _, _, hd => by
    have hdt : d = true := by simpa using hd
    subst hdt
    simp [actionLoop]
  | p :: ps, o :: os, d :: ds, q, k + 1, hp, ho, hdl, hd => by
    have hd' : idx ds k false = true := by simpa using hd
    have hp' : k < ps.length := by simp only [List.length_cons] at hp; omega
    have ho' : k < os.length := by simp only [List.length_cons] at ho; omega
    have hdl' : k < ds.length := by simp only [List.length_cons] at hdl; omega
    cases d
    · simp only [actionLoop, Bool.false_eq_true, if_false, idx_cons_succ]
      exact actionLoop_fst_none act ps os ds p k hp' ho' hdl' hd'
    · simp only [actionLoop, if_true, idx_cons_succ]
      exact actionLoop_fst_none act ps os ds q k hp' ho' hdl' hd'
  | [], _, _, _, k, hp, _, _, _ => absurd hp (by simp)
  | _ :: _, [], _, _, k, _, ho, _, _ => absurd ho (by simp)
  | _ :: _, _ :: _, [], _, k, _, _, hdl, _ => absurd hdl (by simp)

theorem rolloutStep_preserves {E Obs Act : Type} (ve : VecEnv E Obs Act)
    (act : List ℚ → Obs → Act) (n : ℕ) (pop : List (List ℚ))
    (hve : ∀ e a, (ve.step e a).2.1.length = n ∧
      (ve.step e a).2.2.1.length = n ∧ (ve.step e a).2.2.2.length = n)
    (st : RolloutState E Obs) (hd : st.done.length = n) (hr : st.r.length = n) :
    (rolloutStep ve act n pop st).done.length = n ∧
    (rolloutStep ve act n pop st).r.length = n ∧
    (rolloutStep ve act n pop st).obs.length = n := by
  obtain ⟨h1, h2, h3⟩ := hve st.env (actionLoop act pop st.obs st.done st.params).1
  refine ⟨?_, ?_, ?_⟩
  · rw [rolloutStep_done, List.length_zipWith, hd, h3]
    exact Nat.min_self n
  · rw [rolloutStep_r, accumReward_length, hr]
  · rw [rolloutStep_obs, h1]

theorem rolloutStep_done_frozen {E Obs Act : Type} (ve : VecEnv E Obs Act)
    (act : List ℚ → Obs → Act) (n : ℕ) (pop : List (List ℚ))
    (hve : ∀ e a, (ve.step e a).2.1.length = n ∧
      (ve.step e a).2.2.1.length = n ∧ (ve.step e a).2.2.2.length = n)
    (st : RolloutState E Obs) (k : ℕ) (hd : st.done.length = n) (hk : k < n)
    (hdk : idx st.done k false = true) :
    idx (rolloutStep ve act n pop st).done k false = true ∧
    idx (rolloutStep ve act n pop st).r k 0 = idx st.r k 0 := by
  obtain ⟨h1, h2, h3⟩ := hve st.env (actionLoop act pop st.obs st.done st.params).1
  have hdone : idx (rolloutStep ve act n pop st).done k false = true := by
    rw [rolloutStep_done,
      idx_zipWith_or _ _ k (by rw [hd]; exact hk) (by rw [h3]; exact hk), hdk]
    simp
  refine ⟨hdone, ?_⟩
  rw [rolloutStep_r]
  apply idx_accumReward_of_done
  rw [rolloutStep_done] at hdone
  exact hdone

theorem rolloutIter_frozen {E Obs Act : Type} (ve : VecEnv E Obs Act)
    (act : List ℚ → Obs → Act) (n : ℕ) (pop : List (List ℚ))
    (hve : ∀ e a, (ve.step e a).2.1.length = n ∧
      (ve.step e a).2.2.1.length = n ∧ (ve.step e a).2.2.2.length = n)
    (st : RolloutState E Obs) (k : ℕ) (hk : k < n) (hd : st.done.length = n)
    (hr : st.r.length = n) (ho : st.obs.length = n)
    (hdk : idx st.done k false = true) :
    ∀ j : ℕ,
      ((rolloutStep ve act n pop)^[j] st).done.length = n ∧
      ((rolloutStep ve act n pop)^[j] st).r.length = n ∧
      ((rolloutStep ve act n pop)^[j] st).obs.length = n ∧
      idx ((rolloutStep ve act n pop)^[j] st).done k false = true ∧
      idx ((rolloutStep ve act n pop)^[j] st).r k 0 = idx st.r k 0 := by
  intro j
  induction j with
  | zero => exact ⟨hd, hr, ho, hdk, rfl⟩
  | succ j ih =>
    obtain ⟨ihd, ihr, iho, ihdk, ihrk⟩ := ih
    rw [Function.iterate_succ_apply']
    obtain ⟨pd, pr, po⟩ :=
      rolloutStep_preserves ve act n pop hve ((rolloutStep ve act n pop)^[j] st)
        ihd ihr
    obtain ⟨fd, fr⟩ :=
      rolloutStep_done_frozen ve act n pop hve ((rolloutStep ve act n pop)^[j] st)
        k ihd hk ihdk
    exact ⟨pd, pr, po, fd, fr.trans ihrk⟩

theorem rolloutLoop_frozen {E Obs Act : Type} (ve : VecEnv E Obs Act)
    (act : List ℚ → Obs → Act) (n : ℕ) (pop : List (List ℚ))
    (hve : ∀ e a, (ve.step e a).2.1.length = n ∧
      (ve.step e a).2.2.1.length = n ∧ (ve.step e a).2.2.2.length = n)
    (k : ℕ) (hk : k < n) :
    ∀ (fuel : ℕ) (st fin : RolloutState E Obs),
      st.done.length = n → st.r.length = n →
      idx st.done k false = true →
      rolloutLoop ve act n pop fuel st = some fin →
      idx fin.done k false = true ∧ idx fin.r k 0 = idx st.r k 0 := by
  intro fuel
  induction fuel with
  | zero =>
    intro st fin hd hr hdk hsome
    by_cases hall : st.done.all id
    · simp only [rolloutLoop, hall, if_true, Option.some.injEq] at hsome
      rw [← hsome]
      exact ⟨hdk, rfl⟩
    · simp [rolloutLoop, hall] at hsome
  | succ fuel ih =>
    intro st fin hd hr hdk hsome
    by_cases hall : st.done.all id
    · simp only [rolloutLoop, hall, if_true, Option.some.injEq] at hsome
      rw [← hsome]
      exact ⟨hdk, rfl⟩
    · simp only [rolloutLoop, hall, if_false] at hsome
      obtain ⟨pd, pr, po⟩ := rolloutStep_preserves ve act n pop hve st hd hr
      obtain ⟨fd, fr⟩ := rolloutStep_done_frozen ve act n pop hve st k hd hk hdk
      obtain ⟨a, b⟩ := ih (rolloutStep ve act n pop st) fin pd pr fd hsome
      exact ⟨a, b.trans fr⟩

/-- Claim C1: in the rollout loop, (i) the per-step reward at index `k` is
added to the accumulator exactly when `k`'s done flag is still false after
merging this step's new done flags; (ii) once `k`'s done flag is true it stays
true, the accumulator entry never changes through any number of further
rollout steps, and the action assembled for `k` at every such step is the
no-op `none`; (iii) along any terminating rollout the accumulator entry of an
already-done instance is unchanged at the final state. -/
theorem claim_C1_reward_masking {E Obs Act : Type} (ve : VecEnv E Obs Act)
    (act : List ℚ → Obs → Act) (n : ℕ) (pop : List (List ℚ))
    (st : RolloutState E Obs) (k : ℕ)
    (hve : ∀ e a, (ve.step e a).2.1.length = n ∧
      (ve.step e a).2.2.1.length = n ∧ (ve.step e a).2.2.2.length = n)
    (hp : pop.length = n) (hd : st.done.length = n) (hr : st.r.length = n)
    (ho : st.obs.length = n) (hk : k < n) :
    (idx (rolloutStep ve act n pop st).r k 0
      = if idx (rolloutStep ve act n pop st).done k false
          then idx st.r k 0
          else idx st.r k 0
            + idx (ve.step st.env
                (actionLoop act pop st.obs st.done st.params).1).2.2.1 k 0) ∧
    (idx st.done k false = true →
      ∀ j : ℕ,
        idx ((rolloutStep ve act n pop)^[j] st).done k false = true ∧
        idx ((rolloutStep ve act n pop)^[j] st).r k 0 = idx st.r k 0 ∧
        idx (actionLoop act pop ((rolloutStep ve act n pop)^[j] st).obs
              ((rolloutStep ve act n pop)^[j] st).done
              ((rolloutStep ve act n pop)^[j] st).params).1 k none = none) ∧
    (∀ (fuel : ℕ) (fin : RolloutState E Obs),
      rolloutLoop ve act n pop fuel st = some fin →
      idx st.done k false = true →
      idx fin.done k false = true ∧ idx fin.r k 0 = idx st.r k 0) := by
  obtain ⟨h1, h2, h3⟩ := hve st.env (actionLoop act pop st.obs st.done st.params).1
  refine ⟨?_, ?_, ?_⟩
  · rw [rolloutStep_r, rolloutStep_done]
    exact idx_accumReward _ _ _ k (by rw [hr]; exact hk) (by rw [h2]; exact hk)
      (by rw [List.length_zipWith, hd, h3]; simpa using hk)
  · intro hdk j
    obtain ⟨jd, jr, jo, jdk, jrk⟩ :=
      rolloutIter_frozen ve act n pop hve st k hk hd hr ho hdk j
    refine ⟨jdk, jrk, ?_⟩
    exact actionLoop_fst_none act pop _ _ _ k (by rw [hp]; exact hk)
      (by rw [jo]; exact hk) (by rw [jd]; exact hk) jdk
  · intro fuel fin hsome hdk
    exact rolloutLoop_frozen ve act n pop hve k hk fuel st fin hd hr hdk hsome

/-- Claim C1 witness: the masking invariants on a concrete one-instance
rollout state that is already done. -/
theorem claim_C1_reward_masking_witness :
    (idx (rolloutStep wEnv wAct 1 [[0]] wRoll).r 0 0
      = if idx (rolloutStep wEnv wAct 1 [[0]] wRoll).done 0 false
          then idx wRoll.r 0 0
          else idx wRoll.r 0 0
            + idx (wEnv.step wRoll.env
                (actionLoop wAct [[0]] wRoll.obs wRoll.done wRoll.params).1).2.2.1
                0 0) ∧
    (idx wRoll.done 0 false = true →
      ∀ j : ℕ,
        idx ((rolloutStep wEnv wAct 1 [[0]])^[j] wRoll).done 0 false = true ∧
        idx ((rolloutStep wEnv wAct 1 [[0]])^[j] wRoll).r 0 0 = idx wRoll.r 0 0 ∧
        idx (actionLoop wAct [[0]] ((rolloutStep wEnv wAct 1 [[0]])^[j] wRoll).obs
              ((rolloutStep wEnv wAct 1 [[0]])^[j] wRoll).done
              ((rolloutStep wEnv wAct 1 [[0]])^[j] wRoll).params).1 0 none
          = none) ∧
    (∀ (fuel : ℕ) (fin : RolloutState Unit Unit),
      rolloutLoop wEnv wAct 1 [[0]] fuel wRoll = some fin →
      idx wRoll.done 0 false = true →
      idx fin.done 0 false = true ∧ idx fin.r 0 0 = idx wRoll.r 0 0) :=
  claim_C1_reward_masking wEnv wAct 1 [[0]] wRoll 0
    (fun _ _ => ⟨rfl, rfl, rfl⟩) rfl rfl rfl rfl (by decide)

/-! ### Claim C3: fitness passed to `tell` -/

/-- Claim C3: whenever a generation completes, the fitness vector handed to
`SearchStrategy.tell` is exactly the elementwise negation of the cumulative
reward accumulator built during that generation's rollout, and immediately
after `tell` the trainer's cached `best_model` is refreshed from the
strategy's current best (`result.xbest` of the post-`tell` state). -/
theorem claim_C3_fitness_negation {E S Obs Act : Type} (ve : VecEnv E Obs Act)
    (strat : Strategy S) (act : List ℚ → Obs → Act) (rfuel : ℕ) (st : CMAES S)
    (e : E) (step : ℕ) (res : CMAES S × E × ℕ × List ℚ)
    (h : runGeneration ve strat act rfuel st e step = some res) :
    ∃ fin, rolloutLoop ve act st.n_population (strat.ask st.es).2 rfuel
        { env := (ve.reset e).1
          obs := (ve.reset e).2
          r := List.replicate st.n_population 0
          done := List.replicate st.n_population false
          params := st.policy_params
          step := step } = some fin ∧
      res.2.2.2 = fin.r.map (fun x => -x) ∧
      (∀ k : ℕ, idx res.2.2.2 k 0 = -(idx fin.r k 0)) ∧
      res.1.es = strat.tell (strat.ask st.es).1 (strat.ask st.es).2
        (fin.r.map (fun x => -x)) ∧
      res.1.best_model = strat.xbest res.1.es := by
  simp only [runGeneration] at h
  cases hm : rolloutLoop ve act st.n_population (strat.ask st.es).2 rfuel
      { env := (ve.reset e).1
        obs := (ve.reset e).2
        r := List.replicate st.n_population 0
        done := List.replicate st.n_population false
        params := st.policy_params
        step := step } with
  | none =>
    rw [hm] at h
    exact absurd h (by simp)
  | some fin =>
    rw [hm] at h
    simp only [Option.some.injEq] at h
    refine ⟨fin, rfl, ?_, ?_, ?_, ?_⟩
    · rw [← h]
    · intro k
      rw [← h]
      exact idx_map_neg fin.r k
    · rw [← h]
    · rw [← h]

/-- Claim C3 witness: one concrete generation in `wEnv`. -/
theorem claim_C3_fitness_negation_witness :
    ∃ fin, rolloutLoop wEnv wAct ceCMAES.n_population (ceStrat.ask ceCMAES.es).2 1
        { env := (wEnv.reset ()).1
          obs := (wEnv.reset ()).2
          r := List.replicate ceCMAES.n_population 0
          done := List.replicate ceCMAES.n_population false
          params := ceCMAES.policy_params
          step := 0 } = some fin ∧
      wGenRes.2.2.2 = fin.r.map (fun x => -x) ∧
      (∀ k : ℕ, idx wGenRes.2.2.2 k 0 = -(idx fin.r k 0)) ∧
      wGenRes.1.es = ceStrat.tell (ceStrat.ask ceCMAES.es).1
        (ceStrat.ask ceCMAES.es).2 (fin.r.map (fun x => -x)) ∧
      wGenRes.1.best_model = ceStrat.xbest wGenRes.1.es :=
  claim_C3_fitness_negation wEnv ceStrat wAct 1 ceCMAES () 0 wGenRes (by decide)

/-! ### Claim C8: which parameters the policy carries -/

theorem actionLoop_snd_all_done {Obs Act : Type} (act : List ℚ → Obs → Act) :
    ∀ (pop : List (List ℚ)) (obs : List Obs) (done : List Bool) (q : List ℚ),
      (∀ j, j < done.length → idx done j false = true) →
      (actionLoop act pop obs done q).2 = q
  | [], _, _, q, _ => rfl
  | _ :: _, [], _, q, _ => rfl
  | _ :: _, _ :: _, [], q, _ => rfl
  | p :: ps, o :: os, d :: ds, q, h => by
    have hd : d = true := by simpa using h 0 (by simp)
    subst hd
    have h' : ∀ j, j < ds.length → idx ds j false = true := by
      intro j hj
      simpa using h (j + 1) (by simp only [List.length_cons]; omega)
    simp only [actionLoop, if_true]
    exact actionLoop_snd_all_done act ps os ds q h'

theorem actionLoop_snd_last {Obs Act : Type} (act : List ℚ → Obs → Act) :
    ∀ (pop : List (List ℚ)) (obs : List Obs) (done : List Bool) (q : List ℚ)
      (k : ℕ),
      pop.length = done.length → obs.length = done.length →
      k < done.length → idx done k false = false →
      (∀ j, k < j → j < done.length → idx done j false = true) →
      (actionLoop act pop obs done q).2 = idx pop k []
  | p :: ps, o :: os, d :: ds, q, 0, _, _, _, hk0, hafter => by
    have hd : d = false := by simpa using hk0
    subst hd
    simp only [actionLoop, Bool.false_eq_true, if_false, idx_cons_zero]
    refine actionLoop_snd_all_done act ps os ds p ?_
    intro j hj
    simpa using hafter (j + 1) (by omega) (by simp only [List.length_cons]; omega)
  | p :: ps, o :: os, d :: ds, q, k + 1, hp, ho, hkl, hk0, hafter => by
    have hp' : ps.length = ds.length := by simpa using hp
    have ho' : os.length = ds.length := by simpa using ho
    have hkl' : k < ds.length := by simp only [List.length_cons] at hkl; omega
    have hk0' : idx ds k false = false := by simpa using hk0
    have hafter' : ∀ j, k < j → j < ds.length → idx ds j false = true := by
      intro j h1 h2
      simpa using hafter (j + 1) (by omega) (by simp only [List.length_cons]; omega)
    cases d
    · simp only [actionLoop, Bool.false_eq_true, if_false, idx_cons_succ]
      exact actionLoop_snd_last act ps os ds p k hp' ho' hkl' hk0' hafter'
    · simp only [actionLoop, if_true, idx_cons_succ]
      exact actionLoop_snd_last act ps os ds q k hp' ho' hkl' hk0' hafter'
  | [], _, done, _, k, hp, _, hkl, _, _ => by
    simp only [List.length_nil] at hp
    omega
  | _ :: _, [], done, _, k, _, ho, hkl, _, _ => by
    simp only [List.length_nil] at ho
    omega
  | _ :: _, _ :: _, [], _, k, _, _, hkl, _, _ => by
    simp only [List.length_nil] at hkl
    omega

theorem runGeneration_best_model_independent {E S Obs Act : Type}
    (ve : VecEnv E Obs Act) (strat : Strategy S) (act : List ℚ → Obs → Act)
    (rfuel : ℕ) (st : CMAES S) (x : List ℚ) (e : E) (step : ℕ) :
    runGeneration ve strat act rfuel { st with best_model := x } e step
      = runGeneration ve strat act rfuel st e step := rfl

/-- Claim C8: `CMAES.getAction` evaluates the shared policy at the parameters
currently written into it, independently of `best_model`; a whole generation is
likewise independent of the incoming `best_model` (no operation reads it); the
parameters left in the policy by a rollout step are exactly those written by
the action-assembly loop — namely the candidate vector of the last instance
whose done flag was still false on that step. -/
theorem claim_C8_policy_params {E S Obs Act : Type} (ve : VecEnv E Obs Act)
    (strat : Strategy S) (act : List ℚ → Obs → Act) (n rfuel : ℕ)
    (st : CMAES S) (x : List ℚ) (obs0 : Obs) (e : E) (step : ℕ) :
    CMAES.getAction act st obs0 = act st.policy_params obs0 ∧
    CMAES.getAction act { st with best_model := x } obs0
      = CMAES.getAction act st obs0 ∧
    runGeneration ve strat act rfuel { st with best_model := x } e step
      = runGeneration ve strat act rfuel st e step ∧
    (∀ (pop : List (List ℚ)) (s : RolloutState E Obs),
      (rolloutStep ve act n pop s).params
        = (actionLoop act pop s.obs s.done s.params).2) ∧
    (∀ (pop : List (List ℚ)) (obs : List Obs) (done : List Bool) (q : List ℚ)
        (k : ℕ),
      pop.length = done.length → obs.length = done.length →
      k < done.length → idx done k false = false →
      (∀ j, k < j → j < done.length → idx done j false = true) →
      (actionLoop act pop obs done q).2 = idx pop k []) :=
  ⟨rfl, rfl, runGeneration_best_model_independent ve strat act rfuel st x e step,
   fun pop s => rolloutStep_params ve act n pop s, actionLoop_snd_last act⟩

/-- Claim C8 witness: concrete instances; in particular for done flags
`[false, true]` the parameters kept by the loop are the candidate of the last
not-yet-done instance, index 0. -/
theorem claim_C8_policy_params_witness :
    CMAES.getAction pAct ceCMAES () = pAct ceCMAES.policy_params () ∧
    CMAES.getAction pAct { ceCMAES with best_model := [5] } ()
      = CMAES.getAction pAct ceCMAES () ∧
    runGeneration wEnvP ceStrat pAct 1 { ceCMAES with best_model := [5] } () 0
      = runGeneration wEnvP ceStrat pAct 1 ceCMAES () 0 ∧
    (actionLoop pAct [[1], [2]] [(), ()] [false, true] []).2
      = idx [[1], [2]] 0 [] := by
  have h := claim_C8_policy_params wEnvP ceStrat pAct 1 1 ceCMAES [5] () () 0
  refine ⟨h.1, h.2.1, h.2.2.1, ?_⟩
  refine h.2.2.2.2 [[1], [2]] [(), ()] [false, true] [] 0 rfl rfl (by decide)
    (by decide) ?_
  intro j h1 h2
  have hj : j = 1 := by simp only [List.length_cons, List.length_nil] at h2; omega
  subst hj
  rfl

/-! ### Claim C2: step counting and termination -/

theorem rolloutLoop_steps {E Obs Act : Type} (ve : VecEnv E Obs Act)
    (act : List ℚ → Obs → Act) (n : ℕ) (pop : List (List ℚ)) :
    ∀ (fuel : ℕ) (st fin : RolloutState E Obs),
      rolloutLoop ve act n pop fuel st = some fin →
      (st.done.all id = true ∧ fin = st) ∨
      (∃ L, 1 ≤ L ∧ L ≤ fuel ∧ fin.step = st.step + n * L) := by
  intro fuel
  induction fuel with
  | zero =>
    intro st fin hsome
    by_cases hall : st.done.all id
    · simp only [rolloutLoop, hall, if_true, Option.some.injEq] at hsome
      exact Or.inl ⟨hall, hsome.symm⟩
    · simp [rolloutLoop, hall] at hsome
  | succ fuel ih =>
    intro st fin hsome
    by_cases hall : st.done.all id
    · simp only [rolloutLoop, hall, if_true, Option.some.injEq] at hsome
      exact Or.inl ⟨hall, hsome.symm⟩
    · simp only [rolloutLoop, hall, if_false] at hsome
      rcases ih (rolloutStep ve act n pop st) fin hsome with
        ⟨hall2, rfl⟩ | ⟨L, h1, h2, h3⟩
      · refine Or.inr ⟨1, le_refl 1, by omega, ?_⟩
        rw [rolloutStep_step]
        ring
      · refine Or.inr ⟨L + 1, by omega, by omega, ?_⟩
        rw [h3, rolloutStep_step]
        ring

theorem runGeneration_total {E S Obs Act : Type} (ve : VecEnv E Obs Act)
    (strat : Strategy S) (act : List ℚ → Obs → Act) (n B : ℕ) (hn : 1 ≤ n)
    (hB : ∀ (pop : List (List ℚ)) (s : RolloutState E Obs),
      s.done.length = n → ∃ fin, rolloutLoop ve act n pop B s = some fin)
    (st : CMAES S) (hpop : st.n_population = n) (e : E) (step : ℕ) :
    ∃ res, runGeneration ve strat act B st e step = some res ∧
      res.1.n_population = n ∧ step + n ≤ res.2.2.1 ∧
      res.2.2.1 ≤ step + n * B := by
  obtain ⟨fin, hfin⟩ := hB (strat.ask st.es).2
    { env := (ve.reset e).1
      obs := (ve.reset e).2
      r := List.replicate n 0
      done := List.replicate n false
      params := st.policy_params
      step := step } (by simp)
  have hsteps := rolloutLoop_steps ve act n (strat.ask st.es).2 B _ fin hfin
  have hfin_bounds : step + n ≤ fin.step ∧ fin.step ≤ step + n * B := by
    rcases hsteps with ⟨hall, _⟩ | ⟨L, h1, h2, h3⟩
    · exact absurd hall (by simp [all_replicate_false n hn])
    · have hl : n ≤ n * L := by
        calc n = n * 1 := (Nat.mul_one n).symm
        _ ≤ n * L := Nat.mul_le_mul_left n h1
      have hh : n * L ≤ n * B := Nat.mul_le_mul_left n h2
      constructor
      · rw [h3]
        exact Nat.add_le_add_left hl step
      · rw [h3]
        exact Nat.add_le_add_left hh step
  cases hm : runGeneration ve strat act B st e step with
  | none =>
    simp only [runGeneration, hpop] at hm
    rw [hfin] at hm
    simp at hm
  | some res =>
    simp only [runGeneration, hpop] at hm
    rw [hfin] at hm
    simp only [Option.some.injEq] at hm
    refine ⟨res, rfl, ?_, ?_, ?_⟩
    · rw [← hm]
    · rw [← hm]
      exact hfin_bounds.1
    · rw [← hm]
      exact hfin_bounds.2

theorem trainLoop_total {E S Obs Act : Type} (ve : VecEnv E Obs Act)
    (strat : Strategy S) (act : List ℚ → Obs → Act) (n B budget : ℕ)
    (hn : 1 ≤ n)
    (hB : ∀ (pop : List (List ℚ)) (s : RolloutState E Obs),
      s.done.length = n → ∃ fin, rolloutLoop ve act n pop B s = some fin) :
    ∀ (g : ℕ) (st : CMAES S) (e : E) (step : ℕ),
      st.n_population = n → budget ≤ g + step →
      ∃ out, trainLoop ve strat act B budget g st e step = some out ∧
        budget ≤ out.2.2 ∧ step ≤ out.2.2 ∧
        (step < budget → out.2.2 < budget + n * B) ∧
        (budget ≤ step → out.2.2 = step) := by
  intro g
  induction g with
  | zero =>
    intro st e step hpop hbud
    have hnotlt : ¬ step < budget := by omega
    refine ⟨(st, e, step), ?_, by simpa using hbud, le_refl step,
      fun h => absurd h hnotlt, fun _ => rfl⟩
    simp [trainLoop, hnotlt]
  | succ g ih =>
    intro st e step hpop hbud
    by_cases hlt : step < budget
    · obtain ⟨res, hres, hrespop, hlow, hhigh⟩ :=
        runGeneration_total ve strat act n B hn hB st hpop e step
      obtain ⟨out, hout, h1, h2, h3, h4⟩ :=
        ih res.1 res.2.1 res.2.2.1 hrespop (by omega)
      refine ⟨out, ?_, h1, ?_, ?_, ?_⟩
      · simp only [trainLoop, hlt, if_true]
        rw [hres]
        exact hout
      · have hsr : step ≤ res.2.2.1 := le_trans (Nat.le_add_right step n) hlow
        omega
      · intro _
        rcases Nat.lt_or_ge res.2.2.1 budget with hc | hc
        · exact h3 hc
        · rw [h4 hc]
          exact lt_of_le_of_lt hhigh (Nat.add_lt_add_right hlt (n * B))
      · intro hge
        omega
    · refine ⟨(st, e, step), ?_, by simpa using Nat.le_of_not_lt hlt,
        le_refl step, fun h => absurd h hlt, fun _ => rfl⟩
      simp [trainLoop, hlt]

/-- Claim C2 (amended): for population size `n ≥ 1` and an environment whose
episodes all report done within `B` rollout steps, `train` terminates; the
global step counter increases by exactly `n` on every environment step; the
final counter is at least the budget; and the final counter is below
`budget + n * B` — the budget is only checked between generations, so the
original strict bound `budget + n` fails whenever the final generation runs
more than one step past the crossing (see the counterexample). -/
theorem claim_C2_amended {E S Obs Act : Type} (ve : VecEnv E Obs Act)
    (strat : Strategy S) (act : List ℚ → Obs → Act) (n B budget : ℕ)
    (st : CMAES S) (e : E) (hn : 1 ≤ n) (hpop : st.n_population = n)
    (hB : ∀ (pop : List (List ℚ)) (s : RolloutState E Obs),
      s.done.length = n → ∃ fin, rolloutLoop ve act n pop B s = some fin) :
    (∀ (pop : List (List ℚ)) (s : RolloutState E Obs),
      (rolloutStep ve act n pop s).step = s.step + n) ∧
    ∃ out, CMAES.train ve strat act B budget budget st e = some out ∧
      budget ≤ out.2.2 ∧ out.2.2 < budget + n * B := by
  have hBpos : 1 ≤ B := by
    by_contra hB0
    have hB0' : B = 0 := by omega
    subst hB0'
    obtain ⟨fin, hfin⟩ := hB []
      { env := e
        obs := []
        r := []
        done := List.replicate n false
        params := []
        step := 0 } (by simp)
    simp [rolloutLoop, all_replicate_false n hn] at hfin
  obtain ⟨out, hout, h1, h2, h3, h4⟩ :=
    trainLoop_total ve strat act n B budget hn hB budget st e 0 hpop (by omega)
  refine ⟨fun pop s => rolloutStep_step ve act n pop s, out, hout, h1, ?_⟩
  rcases Nat.eq_zero_or_pos budget with hb0 | hbpos
  · subst hb0
    rw [h4 (le_refl 0)]
    have hnb : 1 ≤ n * B := by
      calc 1 = 1 * 1 := by ring
      _ ≤ n * B := Nat.mul_le_mul hn hBpos
    simpa using lt_of_lt_of_le Nat.zero_lt_one hnb
  · exact h3 hbpos

/-- Claim C2 witness: a one-step-episode environment with `n = 1`, `B = 1`,
budget 2; training terminates with the counter exactly at the budget. -/
theorem claim_C2_amended_witness :
    (∀ (pop : List (List ℚ)) (s : RolloutState Unit Unit),
      (rolloutStep wEnv wAct 1 pop s).step = s.step + 1) ∧
    ∃ out, CMAES.train wEnv ceStrat wAct 1 2 2 ceCMAES () = some out ∧
      2 ≤ out.2.2 ∧ out.2.2 < 2 + 1 * 1 := by
  refine claim_C2_amended wEnv ceStrat wAct 1 1 2 ceCMAES () (le_refl 1) rfl ?_
  intro pop s hs
  by_cases hall : s.done.all id
  · exact ⟨s, by simp [rolloutLoop, hall]⟩
  · obtain ⟨b, hb⟩ : ∃ b, s.done = [b] := by
      cases hd : s.done with
      | nil => rw [hd] at hs; simp at hs
      | cons a t =>
        cases t with
        | nil => exact ⟨a, rfl⟩
        | cons c u => rw [hd] at hs; simp at hs
    have hdone : (rolloutStep wEnv wAct 1 pop s).done = [true] := by
      rw [rolloutStep_done, hb]
      simp [wEnv]
    exact ⟨rolloutStep wEnv wAct 1 pop s, by simp [rolloutLoop, hall, hdone]⟩

/-- Claim C2 counterexample: with population size `N = 1`, budget 1 and a
deterministic environment whose episodes take two steps, `train` terminates
with the step counter equal to `2 = budget + N`, refuting the claimed strict
bound `counter < totalStepBudget + N` (the rollout finishes its generation
after crossing the budget). -/
theorem claim_C2_counterexample :
    (CMAES.train ceEnv ceStrat wAct 2 1 1 ceCMAES 0).map (fun o => o.2.2)
      = some 2 ∧ ¬ (2 < 1 + 1) := by
  exact ⟨rfl, by decide⟩

end CmaEs
